import Mathlib

/-!
Shallow embedding of `chianft/util/mint.py` (chiadev/chia-nft-minting-tool).

Conventions of the embedding:
* Python non-negative machine-unbounded ints (coin amounts, costs, fees) are `Nat`;
  Python `//` on non-negative ints is `Nat` division `/`.
* Wallet/node RPC calls are parameters: a selector is the response of the wallet
  (a list of coins) to `select_coins`, the mint RPC `did_mint_nfts` is a function
  from its arguments to an optional bundle (`none` = `success: false`).
* Python exceptions are modelled with `Except MintError`; an uncaught
  `IndexError` raised by `[...][0]` on an empty list is the dedicated
  constructor `MintError.indexError`, distinct from the explicitly raised
  `ValueError`s; a `ZeroDivisionError` in `estimate_fee` is modelled as `none`.
* `bytes32` identities (parent ids, puzzle hashes) are `Nat`; `Coin.name()` is a
  deterministic injective hash of the three coin fields, modelled by `Nat.pair`.
-/

deriving instance DecidableEq for Except

/-- A ledger coin: `(parent_coin_info, puzzle_hash, amount)`. -/
structure Coin where
  parentCoinInfo : Nat
  puzzleHash : Nat
  amount : Nat
deriving DecidableEq, Repr

/-- Model of `Coin.name()`: deterministic hash of the three coin fields, modelled as an
injective pairing. -/
def Coin.name (c : Coin) : Nat :=
  Nat.pair c.parentCoinInfo (Nat.pair c.puzzleHash c.amount)

/-- A spend bundle, reduced to the two views `mint.py` reads:
`sb.additions()` and `sb.removals()`. -/
structure SpendBundle where
  additions : List Coin
  removals : List Coin
deriving DecidableEq, Repr

/-- Errors of a run.  `ambiguousFunding`, `bundleConstruction` and
`feeCoinConflict` are the `ValueError`s the source raises explicitly;
`indexError` is an uncaught Python `IndexError` from `coins[0]` / `[...][0]`
on an empty list (not an error of the spec error taxonomy). -/
inductive MintError where
  | ambiguousFunding (amount : Nat)
  | bundleConstruction (lo hi : Nat)
  | feeCoinConflict
  | indexError
deriving DecidableEq, Repr

/-- Model of `Minter.get_funding_coin` (mint.py:77-81): raise on more than one selected
coin, then take `coins[0]` (IndexError when the wallet returned no coin). -/
def get_funding_coin (coins : List Coin) (amount : Nat) : Except MintError Coin :=
  if 1 < coins.length then .error (.ambiguousFunding amount)
  else
    match coins.head? with
    | some c => .ok c
    | none => .error .indexError

/-- Model of `Minter.get_did_coin` (mint.py:83-85): take `coins[0]` directly, with no
check on how many coins the wallet returned. -/
def get_did_coin (coins : List Coin) : Except MintError Coin :=
  match coins.head? with
  | some c => .ok c
  | none => .error .indexError

/-- The fee transaction, reduced to what `create_fee_tx` builds:
one zero-amount addition to a fresh address, the selected fee coins, the fee. -/
structure FeeTx where
  additions : List (Nat × Nat)
  coins : List Coin
  fee : Nat
deriving DecidableEq, Repr

/-- The JSON-dict serialization of a coin, as produced by
`coin.to_json_dict()` (mint.py:111): a value of a different Python type (a
dict) carrying the same three fields. -/
structure CoinJson where
  parentCoinInfo : Nat
  puzzleHash : Nat
  amount : Nat
deriving DecidableEq, Repr

/-- Model of `Coin.to_json_dict()`. -/
def Coin.toJsonDict (c : Coin) : CoinJson :=
  ⟨c.parentCoinInfo, c.puzzleHash, c.amount⟩

/-- Python `==` between a `Coin` object and a JSON dict, as evaluated by
`item in xch_coins` at mint.py:116 (`item` is a `Coin` from `select_coins`,
`xch_coins` holds the dicts of mint.py:111): a frozen-dataclass coin never
equals a dict, so the comparison is constantly false. -/
def coinEqJson (c : Coin) (j : CoinJson) : Bool :=
  false

/-- The list `xch_coins` of `create_fee_tx` (mint.py:111): the consumed coins
with `coin.amount > 1`, serialized with `to_json_dict()` — only these are sent
to the wallet as the exclusion list of fee-coin selection. -/
def feeExcludeList (spentCoins : List Coin) : List CoinJson :=
  (spentCoins.filter fun c => decide (1 < c.amount)).map Coin.toJsonDict

/-- Model of `Minter.create_fee_tx` (mint.py:110-123).  `selectFeeCoins fee exclude`
is the wallet response (a list of `Coin` objects) to
`select_coins(amount=fee, exclude=exclude)`; `nextPh` is the decoded fresh
address.  The conflict test of mint.py:116 compares each returned `Coin`
against the serialized dicts via `coinEqJson`, so the `ValueError` of
mint.py:117 (the `feeCoinConflict` branch below) is unreachable. -/
def create_fee_tx (selectFeeCoins : Nat → List CoinJson → List Coin) (nextPh : Nat)
    (fee : Nat) (spentCoins : List Coin) : Except MintError FeeTx :=
  let xchCoins := feeExcludeList spentCoins
  let feeCoins := selectFeeCoins fee xchCoins
  if feeCoins.any fun item => xchCoins.any fun j => coinEqJson item j then
    .error .feeCoinConflict
  else
    .ok { additions := [(0, nextPh)], coins := feeCoins, fee := fee }

/-- A mempool item, reduced to the two fields `estimate_fee` reads. -/
structure PoolItem where
  cost : Nat
  fee : Nat
deriving DecidableEq, Repr

/-- The blockchain-state fields `estimate_fee` reads (mint.py:128-130).
`mempoolMaxTotalCost` is read by the source but never used. -/
structure BlockchainState where
  blockMaxCost : Nat
  mempoolMaxTotalCost : Nat
  mempoolCost : Nat
deriving DecidableEq, Repr

/-- The sort key comparison of mint.py:134: ascending `d["fee"] // d["cost"]`. -/
def feeRateLe (a b : PoolItem) : Bool :=
  decide (a.fee / a.cost ≤ b.fee / b.cost)

/-- The accumulation loop of mint.py:135-141: walk the sorted items, breaking
once `cost_sum >= spend_bundle_cost`, returning `(cost_sum, fee_sum)`. -/
def accumLoop (c : Nat) : Nat → Nat → List PoolItem → Nat × Nat
  | costSum, feeSum, [] => (costSum, feeSum)
  | costSum, feeSum, tx :: rest =>
    if c ≤ costSum then (costSum, feeSum)
    else accumLoop c (costSum + tx.cost) (feeSum + tx.fee) rest

/-- Model of `Minter.estimate_fee` (mint.py:125-144).  Python `sorted` is a stable
ascending sort, modelled by `List.mergeSort`.  When the congested branch is
taken with `cost_sum = 0` the source performs `(fee_sum + 1) // 0` and raises
`ZeroDivisionError`; that outcome is modelled as `none`. -/
def estimate_fee (spendBundleCost : Nat) (st : BlockchainState)
    (mempool : List PoolItem) : Option Nat :=
  if st.mempoolCost + spendBundleCost ≤ st.blockMaxCost then some 1
  else
    let sortedTxs := mempool.mergeSort feeRateLe
    let p := accumLoop spendBundleCost 0 0 sortedTxs
    if p.1 = 0 then none
    else some (spendBundleCost * ((p.2 + 1) / p.1))

/-- Sum of the `cost` fields of a list of pool items. -/
def sumCost (l : List PoolItem) : Nat := (l.map PoolItem.cost).sum

/-- Sum of the `fee` fields of a list of pool items. -/
def sumFee (l : List PoolItem) : Nat := (l.map PoolItem.fee).sum

/-- The index at which the accumulation loop of `estimate_fee` stops, given the
cost already accumulated: the number of leading items consumed. -/
def stopIndex (c : Nat) : Nat → List PoolItem → Nat
  | _, [] => 0
  | a, tx :: rest => if c ≤ a then 0 else (stopIndex c (a + tx.cost) rest) + 1

/-- The sorted mempool view of `estimate_fee` (mint.py:134). -/
def sortedPool (mempool : List PoolItem) : List PoolItem :=
  mempool.mergeSort feeRateLe

/-- The number of sorted items the accumulation loop consumes. -/
def stopK (c : Nat) (mempool : List PoolItem) : Nat :=
  stopIndex c 0 (sortedPool mempool)

/-- The arguments `create_spend_bundles` passes to the wallet RPC
`did_mint_nfts` on one batch (mint.py:165-177).  `α` is the type of a metadata
record, `β` of a target address; both are opaque to the source. -/
structure MintArgs (α β : Type) where
  metadataList : List α
  targetList : List β
  royaltyPercentage : Option Nat
  royaltyAddress : Option Nat
  startingNum : Nat
  maxNum : Nat
  xchCoins : Coin
  xchChangePh : Nat
  didCoin : Coin
  didLineageParent : Option Nat
deriving DecidableEq, Repr

/-- One completed batch: the arguments passed to the mint RPC and the bundle it
returned (the entry appended to `spend_bundles`, mint.py:181). -/
structure BatchCall (α β : Type) where
  args : MintArgs α β
  bundle : SpendBundle
deriving DecidableEq, Repr

/-- One `select_coins` wallet call, recording which wallet was asked and for
which amount. -/
inductive WalletKind where
  | xch
  | did
deriving DecidableEq, Repr

/-- A recorded coin-selection RPC call. -/
structure SelectionCall where
  wallet : WalletKind
  amount : Nat
deriving DecidableEq, Repr

/-- The index sequence of the batch loop, Python `range(0, n, 25)`
(mint.py:158,164): `[0, 25, 50, ...]`, of length `⌈n/25⌉`. -/
def mintIndices (n : Nat) : List Nat :=
  (List.range ((n + 24) / 25)).map fun j => 25 * j

/-- The body of the `for i in range(0, n, chunk)` loop of
`create_spend_bundles` (mint.py:164-184), one recursive step per index.
`wallet` is the `did_mint_nfts` RPC (`none` = `success: false`, raising the
`ValueError` of mint.py:179); `fundingPh` is the puzzle hash of the original
funding coin (mint.py:182 filters additions against it); the three
`[...][0]` lookups of mint.py:182-184 raise `IndexError` when no coin
matches.  Returns the ordered list of batches. -/
def mintLoop {α β : Type} (wallet : MintArgs α β → Option SpendBundle)
    (metadataList : List α) (targetList : List β)
    (royaltyAddress royaltyPercentage : Option Nat) (fundingPh : Nat) (n : Nat) :
    List Nat → Coin → Coin → Option Nat → Except MintError (List (BatchCall α β))
  | [], _, _, _ => .ok []
  | i :: idxs, nextCoin, didCoin, didLineageParent =>
    let args : MintArgs α β :=
      { metadataList := (metadataList.drop i).take 25
        targetList := (targetList.drop i).take 25
        royaltyPercentage := royaltyPercentage
        royaltyAddress := royaltyAddress
        startingNum := i + 1
        maxNum := n
        xchCoins := nextCoin
        xchChangePh := nextCoin.puzzleHash
        didCoin := didCoin
        didLineageParent := didLineageParent }
    match wallet args with
    | none => .error (.bundleConstruction i (i + 25))
    | some sb =>
      match (sb.additions.filter fun c => c.puzzleHash == fundingPh).head?,
          (sb.removals.filter fun c => c.name == didCoin.name).head?,
          (sb.additions.filter fun c =>
            c.parentCoinInfo == didCoin.name && c.amount == 1).head? with
      | some nc, some dr, some nd =>
        (mintLoop wallet metadataList targetList royaltyAddress royaltyPercentage
            fundingPh n idxs nc nd (some dr.parentCoinInfo)).map
          fun rest => ⟨args, sb⟩ :: rest
      | _, _, _ => .error .indexError

/-- Model of `Minter.create_spend_bundles` (mint.py:147-185), after the external CSV
loader has produced `metadataList`/`targetList`.  `selectXch amount` is the
XCH wallet response to `select_coins`, `selectDid` the DID wallet response to
`select_coins(amount=1)`.  The first component is the run result (the
ordered batches), the second records the coin-selection RPC calls issued, in
order. -/
def create_spend_bundles {α β : Type} (wallet : MintArgs α β → Option SpendBundle)
    (selectXch : Nat → List Coin) (selectDid : List Coin)
    (metadataList : List α) (targetList : List β)
    (royaltyAddress royaltyPercentage : Option Nat) :
    Except MintError (List (BatchCall α β)) × List SelectionCall :=
  let n := metadataList.length
  match get_funding_coin (selectXch n) n with
  | .error e => (.error e, [⟨.xch, n⟩])
  | .ok fundingCoin =>
    match get_did_coin selectDid with
    | .error e => (.error e, [⟨.xch, n⟩, ⟨.did, 1⟩])
    | .ok didCoin =>
      (mintLoop wallet metadataList targetList royaltyAddress royaltyPercentage
          fundingCoin.puzzleHash n (mintIndices n) fundingCoin didCoin none,
        [⟨.xch, n⟩, ⟨.did, 1⟩])

/-! ### Lemmas about the fee-estimation accumulation loop -/

/-- The sort key comparison is transitive. -/
lemma feeRateLe_trans : ∀ a b c : PoolItem, feeRateLe a b → feeRateLe b c → feeRateLe a c := by
  intro a b c hab hbc
  simp only [feeRateLe, decide_eq_true_eq] at hab hbc ⊢
  omega

/-- The sort key comparison is total. -/
lemma feeRateLe_total : ∀ a b : PoolItem, feeRateLe a b || feeRateLe b a := by
  intro a b
  simp only [feeRateLe, Bool.or_eq_true, decide_eq_true_eq]
  omega

/-- The accumulation loop returns the prefix sums of the first `stopIndex`
items, offset by the incoming accumulators. -/
lemma accumLoop_eq (c : Nat) : ∀ (s : List PoolItem) (a b : Nat),
    accumLoop c a b s =
      (a + sumCost (s.take (stopIndex c a s)), b + sumFee (s.take (stopIndex c a s))) := by
  intro s
  induction s with
  | nil => intro a b; simp [accumLoop, stopIndex, sumCost, sumFee]
  | cons tx rest ih =>
    intro a b
    by_cases h : c ≤ a
    · simp [accumLoop, stopIndex, h, sumCost, sumFee]
    · simp only [accumLoop, stopIndex, if_neg h]
      rw [ih]
      simp only [List.take_succ_cons, sumCost, sumFee, List.map_cons, List.sum_cons,
        Prod.mk.injEq]
      constructor <;> omega

/-- The stop index never exceeds the list length. -/
lemma stopIndex_le_length (c : Nat) : ∀ (s : List PoolItem) (a : Nat),
    stopIndex c a s ≤ s.length := by
  intro s
  induction s with
  | nil => intro a; simp [stopIndex]
  | cons tx rest ih =>
    intro a
    by_cases h : c ≤ a
    · simp [stopIndex, h]
    · simp only [stopIndex, if_neg h, List.length_cons]
      exact Nat.succ_le_succ (ih _)

/-- Before the stop index, the accumulated cost is still below the target:
the loop only continues while `cost_sum < spend_bundle_cost`. -/
lemma stopIndex_min (c : Nat) : ∀ (s : List PoolItem) (a j : Nat),
    j < stopIndex c a s → a + sumCost (s.take j) < c := by
  intro s
  induction s with
  | nil => intro a j hj; simp [stopIndex] at hj
  | cons tx rest ih =>
    intro a j hj
    by_cases h : c ≤ a
    · simp [stopIndex, h] at hj
    · simp only [stopIndex, if_neg h] at hj
      cases j with
      | zero => simpa [sumCost] using Nat.lt_of_not_le h
      | succ j' =>
        have hrec := ih (a + tx.cost) j' (Nat.lt_of_succ_lt_succ hj)
        simp only [List.take_succ_cons, sumCost, List.map_cons, List.sum_cons] at hrec ⊢
        omega

/-- If the loop stopped before exhausting the list, it stopped because the
accumulated cost reached the target. -/
lemma stopIndex_reached (c : Nat) : ∀ (s : List PoolItem) (a : Nat),
    stopIndex c a s < s.length → c ≤ a + sumCost (s.take (stopIndex c a s)) := by
  intro s
  induction s with
  | nil => intro a h; simp [stopIndex] at h
  | cons tx rest ih =>
    intro a h
    by_cases hca : c ≤ a
    · simp only [stopIndex, if_pos hca, List.take_zero, sumCost, List.map_nil, List.sum_nil]
      omega
    · simp only [stopIndex, if_neg hca, List.length_cons] at h ⊢
      have hrec := ih (a + tx.cost) (Nat.lt_of_succ_lt_succ h)
      simp only [List.take_succ_cons, sumCost, List.map_cons, List.sum_cons] at hrec ⊢
      omega

/-! ### Claim theorems about the fee estimator -/

/-- C2: for every bundle cost and pool snapshot, `estimate_fee` returns the
fixed minimum fee 1 when `mempool_cost + cost <= block_max_cost`; otherwise it
stably sorts the pool items ascending by `fee // cost`, accumulates cost and
fee sums from the cheapest items exactly until `cost_sum >= cost` (or the pool
is exhausted), and — whenever that division is defined — returns
`cost * ((fee_sum + 1) // cost_sum)`. -/
theorem estimate_fee_formula (c : Nat) (st : BlockchainState) (pool : List PoolItem) :
    (st.mempoolCost + c ≤ st.blockMaxCost → estimate_fee c st pool = some 1) ∧
    (sortedPool pool).Perm pool ∧
    List.Pairwise (fun a b : PoolItem => a.fee / a.cost ≤ b.fee / b.cost) (sortedPool pool) ∧
    stopK c pool ≤ (sortedPool pool).length ∧
    (∀ j, j < stopK c pool → sumCost ((sortedPool pool).take j) < c) ∧
    (stopK c pool < (sortedPool pool).length →
      c ≤ sumCost ((sortedPool pool).take (stopK c pool))) ∧
    (st.blockMaxCost < st.mempoolCost + c →
      sumCost ((sortedPool pool).take (stopK c pool)) ≠ 0 →
      estimate_fee c st pool =
        some (c * ((sumFee ((sortedPool pool).take (stopK c pool)) + 1) /
          sumCost ((sortedPool pool).take (stopK c pool))))) := by
  refine ⟨?_, ?_, ?_, ?_, ?_, ?_, ?_⟩
  · intro h
    simp [estimate_fee, h]
  · exact List.mergeSort_perm pool feeRateLe
  · exact (List.sorted_mergeSort feeRateLe_trans feeRateLe_total pool).imp
      fun h => by simpa [feeRateLe] using h
  · exact stopIndex_le_length c (sortedPool pool) 0
  · intro j hj
    simpa using stopIndex_min c (sortedPool pool) 0 j hj
  · intro h
    simpa using stopIndex_reached c (sortedPool pool) 0 h
  · intro hcong hnz
    have hif : ¬ (st.mempoolCost + c ≤ st.blockMaxCost) := by omega
    have hacc : accumLoop c 0 0 (sortedPool pool) =
        (sumCost ((sortedPool pool).take (stopK c pool)),
          sumFee ((sortedPool pool).take (stopK c pool))) := by
      rw [accumLoop_eq]
      simp [stopK]
    simp only [estimate_fee, if_neg hif]
    rw [show pool.mergeSort feeRateLe = sortedPool pool from rfl, hacc]
    simp [hnz]

/-- Witness for C2: a free-capacity snapshot returns fee 1, and a congested
snapshot with a single pool item of cost 4 and fee 9 yields
`7 * ((9 + 1) / 4) = 14`. -/
theorem estimate_fee_formula_witness :
    estimate_fee 5 ⟨100, 100, 10⟩ [⟨1, 3⟩] = some 1 ∧
    estimate_fee 7 ⟨3, 100, 5⟩ [⟨4, 9⟩] = some 14 := by
  constructor
  · exact (estimate_fee_formula 5 ⟨100, 100, 10⟩ [⟨1, 3⟩]).1 (by decide)
  · have hs : sortedPool [⟨4, 9⟩] = [⟨4, 9⟩] := List.mergeSort_of_sorted (by decide)
    have h := (estimate_fee_formula 7 ⟨3, 100, 5⟩ [⟨4, 9⟩]).2.2.2.2.2.2 (by decide)
      (by simp only [stopK, hs]; decide)
    simp only [stopK, hs] at h
    exact h.trans (by decide)

/-- C6 (code bug): on a congested snapshot with an empty pool the source does
not guard the division — it evaluates `(fee_sum + 1) // 0` and raises
`ZeroDivisionError` (modelled as `none`), instead of taking the free-capacity
branch or a dedicated pool-division error. -/
theorem estimate_fee_zero_pool_division :
    estimate_fee 20 ⟨10, 100, 0⟩ [] = none := by
  simp [estimate_fee, accumLoop]

/-- Counterexample for C8: on the fixed congested snapshot
`block_max_cost = 3`, `mempool_cost = 5`, pool `[{cost 1, fee 0}, {cost 4, fee 0}]`,
bundle cost 1 is estimated at fee 1 but the larger bundle cost 2 at fee 0:
the congested-branch fee is not monotone in the bundle cost. -/
theorem estimate_fee_monotone_counterexample :
    (1 : Nat) ≤ 2 ∧
    (⟨3, 100, 5⟩ : BlockchainState).blockMaxCost <
      (⟨3, 100, 5⟩ : BlockchainState).mempoolCost + 1 ∧
    (⟨3, 100, 5⟩ : BlockchainState).blockMaxCost <
      (⟨3, 100, 5⟩ : BlockchainState).mempoolCost + 2 ∧
    estimate_fee 1 ⟨3, 100, 5⟩ [⟨1, 0⟩, ⟨4, 0⟩] = some 1 ∧
    estimate_fee 2 ⟨3, 100, 5⟩ [⟨1, 0⟩, ⟨4, 0⟩] = some 0 ∧
    ¬ ((1 : Nat) ≤ 0) := by
  have hs : List.mergeSort [(⟨1, 0⟩ : PoolItem), ⟨4, 0⟩] feeRateLe = [⟨1, 0⟩, ⟨4, 0⟩] :=
    List.mergeSort_of_sorted (by decide)
  refine ⟨by decide, by decide, by decide, ?_, ?_, by decide⟩
  · simp [estimate_fee, hs, accumLoop]
  · simp [estimate_fee, hs, accumLoop]

/-- C8 as amended: on a congested snapshot the estimated fee, when defined, is
non-negative; monotonicity in the bundle cost does not hold
(see the counterexample). -/
theorem estimate_fee_congested_nonneg (c : Nat) (st : BlockchainState)
    (pool : List PoolItem) (v : Nat)
    (hcong : st.blockMaxCost < st.mempoolCost + c)
    (hv : estimate_fee c st pool = some v) : 0 ≤ v :=
  Nat.zero_le v

/-- Witness for the amended C8 at a concrete congested snapshot. -/
theorem estimate_fee_congested_nonneg_witness : (0 : Nat) ≤ 14 := by
  have hs : List.mergeSort [(⟨4, 9⟩ : PoolItem)] feeRateLe = [⟨4, 9⟩] :=
    List.mergeSort_of_sorted (by decide)
  refine estimate_fee_congested_nonneg 7 ⟨3, 100, 5⟩ [⟨4, 9⟩] 14 (by decide) ?_
  simp [estimate_fee, hs, accumLoop]

/-! ### Claim theorems about coin selection and the fee transaction -/

/-- Counterexample for C4: with two coins in the wallet response, authority
(DID) coin selection does not fail — it silently returns the first coin. -/
theorem get_did_coin_multi_counterexample :
    1 < ([⟨0, 0, 1⟩, ⟨1, 1, 1⟩] : List Coin).length ∧
    get_did_coin [⟨0, 0, 1⟩, ⟨1, 1, 1⟩] = .ok ⟨0, 0, 1⟩ := by
  decide

/-- C4 as amended: funding-coin selection fails with the ambiguous-funding
error whenever the wallet returns more than one coin and returns the coin in
the single-coin case, but authority-coin selection performs no such check: it
returns the first returned coin whatever their number. -/
theorem coin_selection_amended :
    (∀ (coins : List Coin) (amount : Nat), 1 < coins.length →
      get_funding_coin coins amount = .error (.ambiguousFunding amount)) ∧
    (∀ (c : Coin) (amount : Nat), get_funding_coin [c] amount = .ok c) ∧
    (∀ (c : Coin) (rest : List Coin), get_did_coin (c :: rest) = .ok c) := by
  refine ⟨?_, ?_, ?_⟩
  · intro coins amount h
    simp [get_funding_coin, h]
  · intro c amount
    simp [get_funding_coin]
  · intro c rest
    simp [get_did_coin]

/-- Witness for the amended C4 at concrete inputs. -/
theorem coin_selection_amended_witness :
    1 < ([⟨0, 0, 5⟩, ⟨1, 1, 7⟩] : List Coin).length ∧
    get_funding_coin [⟨0, 0, 5⟩, ⟨1, 1, 7⟩] 3 = .error (.ambiguousFunding 3) ∧
    get_funding_coin [⟨0, 0, 9⟩] 3 = .ok ⟨0, 0, 9⟩ ∧
    get_did_coin [⟨2, 2, 1⟩, ⟨3, 3, 1⟩] = .ok ⟨2, 2, 1⟩ :=
  ⟨by decide, coin_selection_amended.1 _ 3 (by decide),
    coin_selection_amended.2.1 _ 3, coin_selection_amended.2.2 _ [⟨3, 3, 1⟩]⟩

/-- C9: on the empty wallet response, both funding-coin and authority-coin
selection hit the unguarded `coins[0]` and fail with a raw `IndexError`,
which is none of the taxonomy errors of the run. -/
theorem empty_selection_unguarded :
    (∀ amount : Nat, get_funding_coin [] amount = .error .indexError) ∧
    get_did_coin [] = .error .indexError ∧
    (∀ amount : Nat, MintError.indexError ≠ .ambiguousFunding amount) ∧
    (∀ lo hi : Nat, MintError.indexError ≠ .bundleConstruction lo hi) ∧
    MintError.indexError ≠ .feeCoinConflict := by
  refine ⟨fun amount => rfl, rfl, fun amount => by simp, fun lo hi => by simp, by simp⟩

/-- Counterexample for C5: a coin of amount 1 consumed by the batch bundle is
not excluded from fee-coin selection (mint.py:111 filters `amount > 1`), and
even when the selector returns a consumed coin — of amount 1 or of
amount > 1 — the call succeeds instead of failing with the fee-coin-conflict
error (the overlap test of mint.py:116 compares `Coin` objects with the
serialized dicts of mint.py:111 and is constantly false). -/
theorem create_fee_tx_overlap_counterexample :
    feeExcludeList [⟨1, 2, 1⟩] = [] ∧
    create_fee_tx (fun _ _ => [⟨1, 2, 1⟩]) 3 10 [⟨1, 2, 1⟩] =
      .ok { additions := [(0, 3)], coins := [⟨1, 2, 1⟩], fee := 10 } ∧
    (⟨1, 2, 1⟩ : Coin) ∈ ([⟨1, 2, 1⟩] : List Coin) ∧
    feeExcludeList [⟨5, 5, 9⟩] = [⟨5, 5, 9⟩] ∧
    create_fee_tx (fun _ _ => [⟨5, 5, 9⟩]) 3 10 [⟨5, 5, 9⟩] =
      .ok { additions := [(0, 3)], coins := [⟨5, 5, 9⟩], fee := 10 } ∧
    (⟨5, 5, 9⟩ : Coin) ∈ ([⟨5, 5, 9⟩] : List Coin) := by
  decide

/-- C5 as amended: only the consumed coins with amount strictly greater than 1
are serialized into the exclusion list handed to fee-coin selection; the
in-code conflict test compares the selected `Coin` objects against those
serialized dicts and never matches, so the fee-coin-conflict error of
mint.py:117 is unreachable: the call always proceeds, building the fee
transaction from whatever coins the selector returned. -/
theorem create_fee_tx_amended (selectFeeCoins : Nat → List CoinJson → List Coin)
    (nextPh fee : Nat) (spentCoins : List Coin) :
    (∀ c ∈ spentCoins, 1 < c.amount → c.toJsonDict ∈ feeExcludeList spentCoins) ∧
    (∀ j ∈ feeExcludeList spentCoins, ∃ c ∈ spentCoins, 1 < c.amount ∧ j = c.toJsonDict) ∧
    create_fee_tx selectFeeCoins nextPh fee spentCoins =
      .ok { additions := [(0, nextPh)],
            coins := selectFeeCoins fee (feeExcludeList spentCoins), fee := fee } ∧
    ∀ e : MintError, create_fee_tx selectFeeCoins nextPh fee spentCoins ≠ .error e := by
  have hok : create_fee_tx selectFeeCoins nextPh fee spentCoins =
      .ok { additions := [(0, nextPh)],
            coins := selectFeeCoins fee (feeExcludeList spentCoins), fee := fee } := by
    simp [create_fee_tx, coinEqJson]
  refine ⟨?_, ?_, hok, ?_⟩
  · intro c hc hamt
    simp only [feeExcludeList, List.mem_map]
    exact ⟨c, List.mem_filter.mpr ⟨hc, by simpa using hamt⟩, rfl⟩
  · intro j hj
    simp only [feeExcludeList, List.mem_map] at hj
    obtain ⟨c, hc, hcj⟩ := hj
    obtain ⟨hc1, hc2⟩ := List.mem_filter.mp hc
    exact ⟨c, hc1, by simpa using hc2, hcj.symm⟩
  · intro e he
    rw [hok] at he
    exact absurd he (by simp)

/-- Witness for the amended C5: the consumed coin `⟨5, 5, 9⟩` is serialized
into the exclusion list, and when the selector returns that very coin the
call still builds the fee transaction rather than failing. -/
theorem create_fee_tx_amended_witness :
    (⟨5, 5, 9⟩ : Coin).toJsonDict ∈ feeExcludeList [⟨5, 5, 9⟩] ∧
    create_fee_tx (fun _ _ => [⟨5, 5, 9⟩]) 3 10 [⟨5, 5, 9⟩] =
      .ok { additions := [(0, 3)], coins := [⟨5, 5, 9⟩], fee := 10 } := by
  constructor
  · exact (create_fee_tx_amended (fun _ _ => [⟨5, 5, 9⟩]) 3 10 [⟨5, 5, 9⟩]).1
      ⟨5, 5, 9⟩ (by decide) (by decide)
  · exact (create_fee_tx_amended (fun _ _ => [⟨5, 5, 9⟩]) 3 10 [⟨5, 5, 9⟩]).2.2.1

/-! ### Claim theorems about the batch builder -/

/-- C10: the first coin-selection call of every run asks the XCH wallet for an
amount equal to the number of mint records, whatever the wallet, targets and
royalty parameters are. -/
theorem funding_amount_is_record_count {α β : Type}
    (wallet : MintArgs α β → Option SpendBundle) (selectXch : Nat → List Coin)
    (selectDid : List Coin) (metadataList : List α) (targetList : List β)
    (royaltyAddress royaltyPercentage : Option Nat) :
    (create_spend_bundles wallet selectXch selectDid metadataList targetList
        royaltyAddress royaltyPercentage).2.head? =
      some ⟨WalletKind.xch, metadataList.length⟩ := by
  simp only [create_spend_bundles]
  rcases get_funding_coin (selectXch metadataList.length) metadataList.length with e | f
  · rfl
  · rcases get_did_coin selectDid with e | d <;> rfl

/-- Counterexample for C7: on the empty record list the builder still issues
both coin-selection calls — funding-coin selection with amount 0, then
authority-coin selection — instead of performing none. -/
theorem zero_records_still_selects :
    (create_spend_bundles (fun _ => none) (fun _ => [⟨1, 7, 100⟩]) [⟨2, 9, 1⟩]
        ([] : List Nat) ([] : List Nat) none none).2 =
      [⟨WalletKind.xch, 0⟩, ⟨WalletKind.did, 1⟩] ∧
    (create_spend_bundles (fun _ => none) (fun _ => [⟨1, 7, 100⟩]) [⟨2, 9, 1⟩]
        ([] : List Nat) ([] : List Nat) none none).2 ≠ [] := by
  decide

/-- C7 as amended: on the empty record list the builder returns the empty
bundle list, but only after invoking funding-coin selection with amount 0 and
authority-coin selection; when each selection returns a single coin the run
succeeds with no batches. -/
theorem zero_records_amended {α β : Type} (wallet : MintArgs α β → Option SpendBundle)
    (selectXch : Nat → List Coin) (selectDid : List Coin) (targetList : List β)
    (royaltyAddress royaltyPercentage : Option Nat) (c d : Coin)
    (hx : selectXch 0 = [c]) (hd : selectDid = [d]) :
    (create_spend_bundles wallet selectXch selectDid ([] : List α) targetList
        royaltyAddress royaltyPercentage).1 = .ok [] ∧
    (create_spend_bundles wallet selectXch selectDid ([] : List α) targetList
        royaltyAddress royaltyPercentage).2 =
      [⟨WalletKind.xch, 0⟩, ⟨WalletKind.did, 1⟩] := by
  simp only [create_spend_bundles, List.length_nil, hx, hd, get_funding_coin, get_did_coin]
  simp [mintIndices, mintLoop]

/-- Witness for the amended C7 at concrete selectors. -/
theorem zero_records_amended_witness :
    (create_spend_bundles (fun _ => none) (fun _ => [⟨1, 7, 100⟩]) [⟨2, 9, 1⟩]
        ([] : List Nat) ([] : List Nat) none none).1 = .ok [] ∧
    (create_spend_bundles (fun _ => none) (fun _ => [⟨1, 7, 100⟩]) [⟨2, 9, 1⟩]
        ([] : List Nat) ([] : List Nat) none none).2 =
      [⟨WalletKind.xch, 0⟩, ⟨WalletKind.did, 1⟩] :=
  zero_records_amended (fun _ => none) (fun _ => [⟨1, 7, 100⟩]) [⟨2, 9, 1⟩]
    ([] : List Nat) none none ⟨1, 7, 100⟩ ⟨2, 9, 1⟩ rfl rfl

/-- Taking an added count splits into a `take` and a `take` after `drop`. -/
lemma list_take_add {α : Type} (l : List α) (m n : Nat) :
    l.take (m + n) = l.take m ++ (l.drop m).take n := by
  conv_lhs => rw [← List.take_append_drop m (l.take (m + n))]
  congr 1
  · rw [List.take_take]
    congr 1
    omega
  · rw [← List.take_drop]

/-- Characterization of a successful batch loop started at the index list
`[b, b+25, ..., b+25*(m-1)]`: it yields exactly `m` batches whose metadata
slices, starting numbers and totals follow the index arithmetic, and whose
metadata chunks concatenate to the records between `b` and `b + 25*m`. -/
lemma mintLoop_ok_chunk {α β : Type} (wallet : MintArgs α β → Option SpendBundle)
    (meta : List α) (targets : List β) (rA rP : Option Nat) (fph : Nat) (n : Nat) :
    ∀ (m b : Nat) (nc dc : Coin) (lin : Option Nat) (trace : List (BatchCall α β)),
      mintLoop wallet meta targets rA rP fph n
          ((List.range m).map fun j => b + 25 * j) nc dc lin = .ok trace →
      trace.length = m ∧
      (trace.map fun x => x.args.metadataList).flatten = (meta.drop b).take (25 * m) ∧
      ∀ (j : Nat) (hj : j < trace.length),
        (trace.get ⟨j, hj⟩).args.metadataList = (meta.drop (b + 25 * j)).take 25 ∧
        (trace.get ⟨j, hj⟩).args.startingNum = b + 25 * j + 1 ∧
        (trace.get ⟨j, hj⟩).args.maxNum = n := by
  intro m
  induction m with
  | zero =>
    intro b nc dc lin trace h
    simp only [List.range_zero, List.map_nil, mintLoop, Except.ok.injEq] at h
    subst h
    simp
  | succ m ih =>
    intro b nc dc lin trace h
    rw [List.range_succ_eq_map, List.map_cons, List.map_map] at h
    have hmap : (List.range m).map ((fun j => b + 25 * j) ∘ Nat.succ) =
        (List.range m).map fun j => (b + 25) + 25 * j := by
      apply List.map_congr_left
      intro j hj
      simp only [Function.comp_apply]
      omega
    rw [hmap] at h
    simp only [mintLoop, Nat.mul_zero, Nat.add_zero] at h
    split at h
    · exact absurd h (by simp)
    · split at h
      · rename_i xsb sb hw x1 x2 x3 nc2 dr nd h1 h2 h3
        rcases hrec : mintLoop wallet meta targets rA rP fph n
            ((List.range m).map fun j => b + 25 + 25 * j) nc2 nd
            (some dr.parentCoinInfo) with e | rest
        · rw [hrec] at h
          exact absurd h (by simp [Except.map])
        · rw [hrec] at h
          simp only [Except.map, Except.ok.injEq] at h
          subst h
          obtain ⟨hlen, hflat, hget⟩ := ih (b + 25) nc2 nd (some dr.parentCoinInfo) rest hrec
          refine ⟨by simp [hlen], ?_, ?_⟩
          · simp only [List.map_cons, List.flatten_cons, hflat]
            rw [show 25 * (m + 1) = 25 + 25 * m from by ring,
              list_take_add (meta.drop b) 25 (25 * m), List.drop_drop]
          · intro j hj
            cases j with
            | zero =>
              simp
            | succ j' =>
              have hj' : j' < rest.length := by
                simp only [List.length_cons] at hj
                omega
              have hg := hget j' hj'
              have e1 : b + 25 * (j' + 1) = b + 25 + 25 * j' := by ring
              simp only [List.get_cons_succ, e1]
              exact hg
      · exact absurd h (by simp)

/-- C1: a successful run over `N` records produces exactly `⌈N/25⌉` batches;
the records of the `j`-th batch are the consecutive slice `[25j, 25j+25)` of the
ordered record list, the chunks concatenate back to the full record list (no
record skipped or duplicated), `starting_num` for the chunk beginning at
0-based index `i = 25j` is `i + 1`, and `max_num` is `N` for every chunk. -/
theorem create_spend_bundles_chunking {α β : Type}
    (wallet : MintArgs α β → Option SpendBundle) (selectXch : Nat → List Coin)
    (selectDid : List Coin) (records : List α) (targets : List β)
    (rA rP : Option Nat) (trace : List (BatchCall α β))
    (h : (create_spend_bundles wallet selectXch selectDid records targets rA rP).1 =
      .ok trace) :
    trace.length = (records.length + 24) / 25 ∧
    (trace.map fun x => x.args.metadataList).flatten = records ∧
    ∀ (j : Nat) (hj : j < trace.length),
      (trace.get ⟨j, hj⟩).args.metadataList = (records.drop (25 * j)).take 25 ∧
      (trace.get ⟨j, hj⟩).args.startingNum = 25 * j + 1 ∧
      (trace.get ⟨j, hj⟩).args.maxNum = records.length := by
  simp only [create_spend_bundles] at h
  split at h
  · exact absurd h (by simp)
  · split at h
    · exact absurd h (by simp)
    · rename_i x1 fundingCoin hfund x2 didCoin hdid
      simp only at h
      have hidx : mintIndices records.length =
          (List.range ((records.length + 24) / 25)).map fun j => 0 + 25 * j := by
        simp [mintIndices]
      rw [hidx] at h
      obtain ⟨hlen, hflat, hget⟩ := mintLoop_ok_chunk wallet records targets rA rP
        fundingCoin.puzzleHash records.length ((records.length + 24) / 25) 0
        fundingCoin didCoin none trace h
      refine ⟨hlen, ?_, ?_⟩
      · rw [hflat, List.drop_zero]
        exact List.take_of_length_le (by omega)
      · intro j hj
        have hg := hget j hj
        simpa using hg

/-- Injectivity of `Coin.name`: two coins with the same derived name are the
same coin. -/
lemma coin_name_inj {c d : Coin} (h : c.name = d.name) : c = d := by
  simp only [Coin.name] at h
  obtain ⟨h1, h2⟩ := Nat.pair_eq_pair.mp h
  obtain ⟨h3, h4⟩ := Nat.pair_eq_pair.mp h2
  cases c
  cases d
  simp_all

/-- Lineage characterization of a successful batch loop: the first batch call
carries the incoming lineage parent and authority coin, and the lineage parent
of every later call is the parent id of the removal of the previous bundle
whose name matches the authority coin of the previous call (which, by injectivity of
coin names, is that authority coin itself). -/
lemma mintLoop_ok_lineage {α β : Type} (wallet : MintArgs α β → Option SpendBundle)
    (meta : List α) (targets : List β) (rA rP : Option Nat) (fph : Nat) (n : Nat) :
    ∀ (idxs : List Nat) (nc dc : Coin) (lin : Option Nat) (trace : List (BatchCall α β)),
      mintLoop wallet meta targets rA rP fph n idxs nc dc lin = .ok trace →
      (∀ x, trace.head? = some x → x.args.didLineageParent = lin ∧ x.args.didCoin = dc) ∧
      ∀ (j : Nat) (hj : j + 1 < trace.length),
        ∃ r, ((trace.get ⟨j, by omega⟩).bundle.removals.filter fun q =>
            q.name == (trace.get ⟨j, by omega⟩).args.didCoin.name).head? = some r ∧
          (trace.get ⟨j + 1, hj⟩).args.didLineageParent = some r.parentCoinInfo ∧
          r = (trace.get ⟨j, by omega⟩).args.didCoin := by
  intro idxs
  induction idxs with
  | nil =>
    intro nc dc lin trace h
    simp only [mintLoop, Except.ok.injEq] at h
    subst h
    exact ⟨fun x hx => by simp at hx, fun j hj => by simp at hj⟩
  | cons i idxs ih =>
    intro nc dc lin trace h
    simp only [mintLoop] at h
    split at h
    · exact absurd h (by simp)
    · split at h
      · rename_i xsb sb hw x1 x2 x3 nc2 dr nd h1 h2 h3
        rcases hrec : mintLoop wallet meta targets rA rP fph n idxs nc2 nd
            (some dr.parentCoinInfo) with e | rest
        · rw [hrec] at h
          exact absurd h (by simp [Except.map])
        · rw [hrec] at h
          simp only [Except.map, Except.ok.injEq] at h
          subst h
          obtain ⟨ihead, iconsec⟩ := ih nc2 nd (some dr.parentCoinInfo) rest hrec
          have hdr_eq : dr = dc := by
            have hmem := List.mem_of_mem_head? (Option.mem_def.mpr h2)
            have hpred := (List.mem_filter.mp hmem).2
            have hname : dr.name = dc.name := by simpa using hpred
            exact coin_name_inj hname
          constructor
          · intro x hx
            simp only [List.head?_cons, Option.some.injEq] at hx
            subst hx
            exact ⟨rfl, rfl⟩
          · intro j hj
            cases j with
            | zero =>
              cases rest with
              | nil => simp at hj
              | cons y ys =>
                obtain ⟨hy1, hy2⟩ := ihead y rfl
                refine ⟨dr, ?_, ?_, ?_⟩
                · simpa using h2
                · simpa using hy1
                · simpa using hdr_eq
            | succ j' =>
              have hj' : j' + 1 < rest.length := by
                simp only [List.length_cons] at hj
                omega
              have hc := iconsec j' hj'
              simpa [List.get_cons_succ] using hc
      · exact absurd h (by simp)

/-- C3: on a successful run, the first batch is called with no authority
lineage parent, and the `did_lineage_parent` of every later batch is the parent
id of the removal of the immediately preceding bundle whose name equals the
name of the authority (DID) coin of the preceding batch — equivalently (coin names
being injective) the parent id of that authority coin itself. -/
theorem create_spend_bundles_lineage {α β : Type}
    (wallet : MintArgs α β → Option SpendBundle) (selectXch : Nat → List Coin)
    (selectDid : List Coin) (records : List α) (targets : List β)
    (rA rP : Option Nat) (trace : List (BatchCall α β))
    (h : (create_spend_bundles wallet selectXch selectDid records targets rA rP).1 =
      .ok trace) :
    (∀ x, trace.head? = some x → x.args.didLineageParent = none) ∧
    ∀ (j : Nat) (hj : j + 1 < trace.length),
      ∃ r, ((trace.get ⟨j, by omega⟩).bundle.removals.filter fun q =>
          q.name == (trace.get ⟨j, by omega⟩).args.didCoin.name).head? = some r ∧
        (trace.get ⟨j + 1, hj⟩).args.didLineageParent = some r.parentCoinInfo ∧
        (trace.get ⟨j + 1, hj⟩).args.didLineageParent =
          some ((trace.get ⟨j, by omega⟩).args.didCoin.parentCoinInfo) := by
  simp only [create_spend_bundles] at h
  split at h
  · exact absurd h (by simp)
  · split at h
    · exact absurd h (by simp)
    · rename_i x1 fundingCoin hfund x2 didCoin hdid
      simp only at h
      obtain ⟨ihead, iconsec⟩ := mintLoop_ok_lineage wallet records targets rA rP
        fundingCoin.puzzleHash records.length (mintIndices records.length)
        fundingCoin didCoin none trace h
      refine ⟨fun x hx => (ihead x hx).1, ?_⟩
      intro j hj
      obtain ⟨r, hr1, hr2, hr3⟩ := iconsec j hj
      exact ⟨r, hr1, hr2, by rw [hr2, hr3]⟩

/-- A concrete mint RPC for witnesses: every batch bundle spends the funding
coin and the authority coin, and produces a change coin with the funding
puzzle hash 7 together with the singleton successor of the authority coin. -/
def demoWallet (args : MintArgs Nat Nat) : Option SpendBundle :=
  some { additions := [⟨500, 7, 74⟩, ⟨args.didCoin.name, 9, 1⟩],
         removals := [args.xchCoins, args.didCoin] }

/-- A concrete XCH wallet response: a single funding coin of puzzle hash 7. -/
def demoSelectXch : Nat → List Coin := fun _ => [⟨1, 7, 100⟩]

/-- A concrete DID wallet response: the single authority coin `⟨2, 9, 1⟩`. -/
def demoSelectDid : List Coin := [⟨2, 9, 1⟩]

/-- A concrete successful 26-record run (two batches of 25 and 1 records). -/
def demoTrace : List (BatchCall Nat Nat) :=
  (create_spend_bundles demoWallet demoSelectXch demoSelectDid
    (List.range 26) (List.range 26) none none).1.toOption.getD []

/-- Witness for C1: the 26-record demo run yields 2 batches whose chunks
concatenate to the records, the second starting at number 26. -/
theorem create_spend_bundles_chunking_witness :
    demoTrace.length = 2 ∧
    (demoTrace.map fun x => x.args.metadataList).flatten = List.range 26 ∧
    (demoTrace.get ⟨1, by decide⟩).args.startingNum = 26 := by
  have h := create_spend_bundles_chunking demoWallet demoSelectXch demoSelectDid
    (List.range 26) (List.range 26) none none demoTrace rfl
  refine ⟨h.1.trans (by decide), h.2.1, ?_⟩
  exact (h.2.2 1 (by decide)).2.1.trans (by decide)

/-- Witness for C3: in the demo run, the lineage parent of the second batch is the
parent id of the authority-coin removal of the first bundle. -/
theorem create_spend_bundles_lineage_witness :
    ∃ r, ((demoTrace.get ⟨0, by decide⟩).bundle.removals.filter fun q =>
        q.name == (demoTrace.get ⟨0, by decide⟩).args.didCoin.name).head? = some r ∧
      (demoTrace.get ⟨1, by decide⟩).args.didLineageParent = some r.parentCoinInfo ∧
      (demoTrace.get ⟨1, by decide⟩).args.didLineageParent =
        some ((demoTrace.get ⟨0, by decide⟩).args.didCoin.parentCoinInfo) := by
  have h := create_spend_bundles_lineage demoWallet demoSelectXch demoSelectDid
    (List.range 26) (List.range 26) none none demoTrace rfl
  exact h.2 0 (by decide)
